import Mathlib

/-!
# Verification of `cntr.c`

A shallow embedding of the text-centering filter `cntr.c`:

* bytes are modelled as `Nat`, byte strings as `List Nat`; the newline byte is
  `10`, the null terminator is `0`, the space byte is `32`;
* a C string argument is an arbitrary byte list; every function that receives a
  null-terminated string only ever inspects the prefix before the first null
  byte (`strlen`, `strstr`, and all loop guards stop there), which the
  embedding renders as `List.takeWhile (· != 0)`;
* the libc `wcwidth` table is an uninterpreted parameter `wcw : Nat → Int`;
  `mbrtowc` in a UTF-8 locale is modelled by the strict UTF-8 decoder
  `decodeUtf8` (rejecting overlong forms, surrogates and code points above
  `0x10FFFF`, exactly as glibc does);
* the `ioctl(TIOCGWINSZ)` outcome is a parameter `Option Nat` (`none` =
  the query failed, `some c` = the reported `ws_col`);
* allocation behaviour (for the error-propagation claims) is modelled by a
  second copy of the parser threaded through an allocation oracle
  `orc : Nat → Bool` that answers one query per `malloc`/`realloc`/`strdup`
  in program order.
-/

/-- One UTF-8 continuation byte, `0x80 ≤ b ≤ 0xBF`. -/
def isCont (b : Nat) : Bool := 128 ≤ b && b ≤ 191

/-- Constraint on the second byte of a three-byte sequence (excludes overlong
forms for lead `0xE0` and surrogates for lead `0xED`). -/
def cont3Ok (b0 b1 : Nat) : Bool :=
  if b0 = 224 then 160 ≤ b1 && b1 ≤ 191
  else if b0 = 237 then 128 ≤ b1 && b1 ≤ 159
  else isCont b1

/-- Constraint on the second byte of a four-byte sequence (excludes overlong
forms for lead `0xF0` and code points above `0x10FFFF` for lead `0xF4`). -/
def cont4Ok (b0 b1 : Nat) : Bool :=
  if b0 = 240 then 144 ≤ b1 && b1 ≤ 191
  else if b0 = 244 then 128 ≤ b1 && b1 ≤ 143
  else isCont b1

/-- Strict UTF-8 decoding of one code point from the front of a byte list,
as performed by glibc `mbrtowc` in a UTF-8 locale: returns the code point and
the number of bytes consumed, or `none` on a malformed or incomplete
sequence. -/
def decodeUtf8 : List Nat → Option (Nat × Nat)
  | [] => none
  | b0 :: rest =>
    if b0 < 128 then some (b0, 1)
    else if 194 ≤ b0 && b0 ≤ 223 then
      match rest with
      | b1 :: _ => if isCont b1 then some ((b0 - 192) * 64 + (b1 - 128), 2) else none
      | [] => none
    else if 224 ≤ b0 && b0 ≤ 239 then
      match rest with
      | b1 :: b2 :: _ =>
        if cont3Ok b0 b1 && isCont b2 then
          some ((b0 - 224) * 4096 + (b1 - 128) * 64 + (b2 - 128), 3)
        else none
      | _ => none
    else if 240 ≤ b0 && b0 ≤ 244 then
      match rest with
      | b1 :: b2 :: b3 :: _ =>
        if cont4Ok b0 b1 && isCont b2 && isCont b3 then
          some ((b0 - 240) * 262144 + (b1 - 128) * 4096 + (b2 - 128) * 64 + (b3 - 128), 4)
        else none
      | _ => none
    else none

/-- The column contribution of one decoded code point in `getDisplayWidth`:
`int char_width = wcwidth(wc); if (char_width < 0) char_width = 1;`. -/
def cpWidth (wcw : Nat → Int) (cp : Nat) : Nat :=
  if wcw cp < 0 then 1 else (wcw cp).toNat

/-- The scanning loop of `getDisplayWidth` over the (null-free) buffer:
decode a code point and add its width, or on a malformed/incomplete sequence
advance one byte, add 1 and reset the decoder state.  A successful decode
always consumes `k ≥ 1` bytes, so dropping `k - 1` bytes of the tail is
dropping `k` bytes of the whole list. -/
def widthLoop (wcw : Nat → Int) : List Nat → Nat
  | [] => 0
  | b :: rest =>
    match decodeUtf8 (b :: rest) with
    | some (cp, k) => cpWidth wcw cp + widthLoop wcw (rest.drop (k - 1))
    | none => 1 + widthLoop wcw rest
termination_by s => s.length
decreasing_by
  · simp only [List.length_drop, List.length_cons]; omega
  · simp

/-- `getDisplayWidth` from `cntr.c`: the scan covers `strlen(str)` bytes,
i.e. exactly the prefix before the first null byte. -/
def getDisplayWidth (wcw : Nat → Int) (str : List Nat) : Nat :=
  widthLoop wcw (str.takeWhile (· != 0))

/-- `getTerminalWidth` from `cntr.c`: the `ioctl(STDOUT_FILENO, TIOCGWINSZ)`
outcome is the parameter (`none` = the call returned -1, `some c` = the
reported `ws_col`); on failure the fixed fallback 80 is returned. -/
def getTerminalWidth (ioctlResult : Option Nat) : Nat :=
  match ioctlResult with
  | none => 80
  | some c => c

/-- A text paragraph: an ordered sequence of lines (each a byte string). -/
structure Paragraph where
  lines : List (List Nat)
deriving DecidableEq, Repr

/-- The whole document: an ordered sequence of paragraphs. -/
structure Document where
  paragraphs : List Paragraph
deriving DecidableEq, Repr

/-- Index of the first occurrence of two consecutive newline bytes
(`strstr(paraStart, "\n\n")` as an offset), or `none`. -/
def findNN : List Nat → Option Nat
  | [] => none
  | [_] => none
  | a :: b :: rest =>
    if a = 10 ∧ b = 10 then some 0
    else (findNN (b :: rest)).map (· + 1)

/-- The inner line loop of `parseDocument`: repeatedly take the bytes up to
the next newline as a line, skip the newline, stop at the end of the
paragraph slice.  (The slice handed to this loop by `parseDocument` is
null-free, so the `*lineStart` guard of the C loop never fires inside it.) -/
def splitLinesC : List Nat → List (List Nat)
  | [] => []
  | b :: r =>
    ((b :: r).takeWhile (· != 10)) :: splitLinesC (((b :: r).dropWhile (· != 10)).tail)
termination_by s => s.length
decreasing_by
  have h : ∀ (x : Nat) (xs : List Nat),
      (List.dropWhile (fun v => v != 10) (x :: xs)).tail.length < (x :: xs).length := by
    intro x xs
    have h1 := (List.dropWhile_sublist (l := x :: xs) (fun v => v != 10)).length_le
    have h2 := List.length_tail ((x :: xs).dropWhile (fun v => v != 10))
    simp only [List.length_cons] at h1 ⊢
    omega
  exact h _ _

/-- The paragraph loop of `parseDocument`: skip newline bytes, then cut the
next paragraph at the first `"\n\n"` (or the end of the buffer), split it
into lines, and continue after the two newline bytes. -/
def parseLoop (t : List Nat) : List Paragraph :=
  let t' := t.dropWhile (· == 10)
  if h : t' = [] then []
  else
    match findNN t' with
    | none => [⟨splitLinesC t'⟩]
    | some q => ⟨splitLinesC (t'.take q)⟩ :: parseLoop (t'.drop (q + 2))
termination_by t.length
decreasing_by
  have h1 := (List.dropWhile_sublist (l := t) (fun x => x == 10)).length_le
  have h2 : 0 < (t.dropWhile (· == 10)).length := List.length_pos.mpr h
  simp only [List.length_drop]
  omega

/-- `parseDocument` from `cntr.c`: all pointer scans (`strlen`, `strstr`, the
loop guards) stop at the first null byte, so the parse covers exactly the
null-free prefix of the buffer. -/
def parseDocument (text : List Nat) : Document :=
  ⟨parseLoop (text.takeWhile (· != 0))⟩

/-- The per-line emission of `printCenteredDocument`: the centering padding is
`(terminalWidth - displayWidth) / 2` in C `int` arithmetic (truncating
division), clamped to 0 when negative, followed by the line bytes and a
newline. -/
def renderLine (wcw : Nat → Int) (terminalWidth : Int) (line : List Nat) : List Nat :=
  let displayWidth : Int := (getDisplayWidth wcw line : Nat)
  let padding : Int := Int.tdiv (terminalWidth - displayWidth) 2
  let padded : Int := if padding < 0 then 0 else padding
  List.replicate padded.toNat 32 ++ line ++ [10]

/-- Join a list of blocks with a separator byte string (used to state the
renderer's and the round-trip property's output shapes). -/
def joinSep (sep : List Nat) : List (List Nat) → List Nat
  | [] => []
  | [l] => l
  | l :: ls => l ++ sep ++ joinSep sep ls

/-- `printCenteredDocument` from `cntr.c` as the byte string it writes: every
line is rendered by `renderLine`, and one extra newline is emitted between
adjacent paragraphs. -/
def printCenteredDocument (wcw : Nat → Int) (terminalWidth : Int) (doc : Document) : List Nat :=
  joinSep [10] (doc.paragraphs.map (fun p => (p.lines.map (renderLine wcw terminalWidth)).flatten))

/-- Strip trailing newline bytes (used to state the round-trip property). -/
def rstripNL (l : List Nat) : List Nat :=
  (l.reverse.dropWhile (· == 10)).reverse

/-- Decidable check for a run of three or more consecutive newline bytes. -/
def hasTripleNL : List Nat → Bool
  | a :: b :: c :: rest => (a == 10 && b == 10 && c == 10) || hasTripleNL (b :: c :: rest)
  | _ => false

/-- Lines of a byte string in the usual sense: maximal newline-free slices,
with a line before and after every newline byte (so `splitNL` of `n` newline
bytes has `n + 1` entries).  Used for the independent, spec-side paragraph
count of I4. -/
def splitNL : List Nat → List (List Nat)
  | [] => [[]]
  | b :: r =>
    if b == 10 then [] :: splitNL r
    else
      match splitNL r with
      | [] => [[b]]
      | l :: ls => (b :: l) :: ls

/-- Number of maximal runs of `true` in a list of booleans. -/
def countRuns : List Bool → Nat
  | [] => 0
  | false :: rest => countRuns rest
  | true :: rest => 1 + countRuns (rest.dropWhile (fun x => x))
termination_by l => l.length
decreasing_by
  · simp
  · have h := (List.dropWhile_sublist (l := rest) (fun x => x)).length_le
    simp only [List.length_cons]
    omega

/-- Spec-side paragraph count (I4): the number of maximal runs of non-blank
lines, where a blank line is an empty line. -/
def specParagraphCount (t : List Nat) : Nat :=
  countRuns ((splitNL t).map (fun l => !l.isEmpty))

/-- A byte string that is a concatenation of complete UTF-8 code-point
encodings, i.e. one that ends on a UTF-8 code-point boundary. -/
inductive ValidUtf8 : List Nat → Prop
  | nil : ValidUtf8 []
  | cons {s : List Nat} {cp k : Nat} (h : decodeUtf8 s = some (cp, k))
      (rest : ValidUtf8 (s.drop k)) : ValidUtf8 s

/-- A paragraph in the allocation-aware model: the C struct also records the
capacity of its `lines` array (initially 8, doubled by `realloc`). -/
structure ParagraphA where
  lines : List (List Nat)
  capacity : Nat
deriving DecidableEq, Repr

/-- A document in the allocation-aware model, with the capacity of its
`paragraphs` array. -/
structure DocumentA where
  paragraphs : List ParagraphA
  capacity : Nat
deriving DecidableEq, Repr

/-- `createDocument` with an allocation oracle: two allocations (the struct,
then the paragraphs array); if the first fails the second is not attempted;
any failure yields `none` (NULL). -/
def createDocumentA (orc : Nat → Bool) (st : Nat) : Nat × Option DocumentA :=
  if orc st then
    if orc (st + 1) then (st + 2, some (DocumentA.mk [] 8)) else (st + 2, none)
  else (st + 1, none)

/-- `createParagraph` with an allocation oracle: same shape as
`createDocumentA`. -/
def createParagraphA (orc : Nat → Bool) (st : Nat) : Nat × Option ParagraphA :=
  if orc st then
    if orc (st + 1) then (st + 2, some (ParagraphA.mk [] 8)) else (st + 2, none)
  else (st + 1, none)

/-- `addLineToParagraph` with an allocation oracle.  When the array is full a
`realloc` is attempted first; if it fails the function just returns (the line
is dropped).  Then `strdup` is attempted; if it fails the function just
returns (the line is dropped).  No failure is reported to the caller: the C
function returns `void`. -/
def addLineToParagraphA (orc : Nat → Bool) (st : Nat) (para : ParagraphA)
    (line : List Nat) : Nat × ParagraphA :=
  if para.lines.length ≥ para.capacity then
    if orc st then
      if orc (st + 1) then (st + 2, ⟨para.lines ++ [line], para.capacity * 2⟩)
      else (st + 2, ⟨para.lines, para.capacity * 2⟩)
    else (st + 1, para)
  else
    if orc st then (st + 1, ⟨para.lines ++ [line], para.capacity⟩)
    else (st + 1, para)

/-- `addParagraphToDocument` with an allocation oracle: a `realloc` only when
the array is full; on its failure the paragraph is silently not added. -/
def addParagraphToDocumentA (orc : Nat → Bool) (st : Nat) (doc : DocumentA)
    (para : ParagraphA) : Nat × DocumentA :=
  if doc.paragraphs.length ≥ doc.capacity then
    if orc st then (st + 1, ⟨doc.paragraphs ++ [para], doc.capacity * 2⟩)
    else (st + 1, doc)
  else (st, ⟨doc.paragraphs ++ [para], doc.capacity⟩)

/-- The per-paragraph line loop of `parseDocument` with an allocation oracle:
for each line first `malloc(lineLength + 1)` (whose failure IS propagated:
the C code frees everything and returns NULL), then `addLineToParagraph`
(whose internal failures are not). -/
def addLinesA (orc : Nat → Bool) : Nat → ParagraphA → List (List Nat) →
    Option (Nat × ParagraphA)
  | st, para, [] => some (st, para)
  | st, para, l :: ls =>
    if orc st then
      let r := addLineToParagraphA orc (st + 1) para l
      addLinesA orc r.1 r.2 ls
    else none

/-- The paragraph loop of `parseDocument` with an allocation oracle.  When no
`"\n\n"` is found the paragraph extends to the end of the buffer and the loop
exits after adding it, so that arm returns directly. -/
def parseLoopA (orc : Nat → Bool) (st : Nat) (doc : DocumentA) (t : List Nat) :
    Option DocumentA :=
  let t' := t.dropWhile (· == 10)
  if ht : t' = [] then some doc
  else
    let cp := createParagraphA orc st
    match cp.2 with
    | none => none
    | some para =>
      match findNN t' with
      | none =>
        match addLinesA orc cp.1 para (splitLinesC t') with
        | none => none
        | some r => some (addParagraphToDocumentA orc r.1 doc r.2).2
      | some q =>
        match addLinesA orc cp.1 para (splitLinesC (t'.take q)) with
        | none => none
        | some r =>
          let ad := addParagraphToDocumentA orc r.1 doc r.2
          parseLoopA orc ad.1 ad.2 (t'.drop (q + 2))
termination_by t.length
decreasing_by
  have h2 : 0 < (t.dropWhile (· == 10)).length := List.length_pos.mpr (by assumption)
  have h1 := (List.dropWhile_sublist (l := t) (fun x => x == 10)).length_le
  simp only [List.length_drop]
  omega

/-- `parseDocument` with an allocation oracle. -/
def parseDocumentA (orc : Nat → Bool) (text : List Nat) : Option DocumentA :=
  match createDocumentA orc 0 with
  | (_, none) => none
  | (st, some doc) => parseLoopA orc st doc (text.takeWhile (· != 0))

/-- Forget the capacity bookkeeping of the allocation-aware model. -/
def eraseParaA (p : ParagraphA) : Paragraph := ⟨p.lines⟩

/-- Forget the capacity bookkeeping of the allocation-aware model. -/
def eraseDocA (d : DocumentA) : Document := ⟨d.paragraphs.map eraseParaA⟩

/-! ## Generic list helpers -/

theorem takeWhile_eq_self_of {α : Type} {p : α → Bool} {l : List α} (h : ∀ x ∈ l, p x = true) :
    l.takeWhile p = l :=
  List.takeWhile_eq_self_iff.mpr h

theorem takeWhile_append_of {α : Type} {p : α → Bool} {a : List α} (b : List α)
    (h : ∀ x ∈ a, p x = true) : (a ++ b).takeWhile p = a ++ b.takeWhile p := by
  rw [List.takeWhile_append, takeWhile_eq_self_of h, if_pos rfl]

theorem dropWhile_append_of_all {α : Type} {p : α → Bool} {a : List α} (b : List α)
    (h : ∀ x ∈ a, p x = true) : (a ++ b).dropWhile p = b.dropWhile p := by
  rw [List.dropWhile_append, if_pos]
  rw [List.isEmpty_iff, List.dropWhile_eq_nil_iff]
  exact h

theorem dropWhile_append_of_ex {α : Type} {p : α → Bool} {a : List α} (b : List α)
    (h : ∃ x ∈ a, p x = false) : (a ++ b).dropWhile p = a.dropWhile p ++ b := by
  rw [List.dropWhile_append, if_neg]
  rw [List.isEmpty_iff, List.dropWhile_eq_nil_iff]
  intro hall
  obtain ⟨x, hx, hpx⟩ := h
  rw [hall x hx] at hpx
  exact Bool.noConfusion hpx

theorem dropWhile_head_not {α : Type} {p : α → Bool} : ∀ {l : List α} {d : α} {rr : List α},
    l.dropWhile p = d :: rr → p d = false := by
  intro l
  induction l with
  | nil => intro d rr h; simp at h
  | cons a r ih =>
    intro d rr h
    rw [List.dropWhile_cons] at h
    split at h
    · exact ih h
    · rename_i hpa
      cases h
      simpa using hpa

/-! ## Trailing-newline stripping -/

theorem rstripNL_nil : rstripNL [] = [] := rfl

theorem rstripNL_append_all {m : List Nat} (l : List Nat) (h : ∀ x ∈ m, x = 10) :
    rstripNL (l ++ m) = rstripNL l := by
  unfold rstripNL
  rw [List.reverse_append, dropWhile_append_of_all]
  intro x hx
  rw [List.mem_reverse] at hx
  simp [h x hx]

theorem rstripNL_append_ex {v : List Nat} (u : List Nat) (h : ∃ x ∈ v, ¬x = 10) :
    rstripNL (u ++ v) = u ++ rstripNL v := by
  unfold rstripNL
  rw [List.reverse_append, dropWhile_append_of_ex, List.reverse_append, List.reverse_reverse]
  obtain ⟨x, hx, hpx⟩ := h
  refine ⟨x, by simpa using hx, by simpa using hpx⟩

theorem rstripNL_single {x : Nat} (h : ¬x = 10) : rstripNL [x] = [x] := by
  unfold rstripNL
  simp [List.dropWhile_cons, h]

theorem rstripNL_eq_self {l : List Nat} (h : l.getLast? ≠ some 10) : rstripNL l = l := by
  rcases eq_or_ne l [] with hl | hl
  · subst hl; rfl
  · have hlast : l.getLast hl ≠ 10 := by
      intro hx
      exact h (by rw [List.getLast?_eq_getLast l hl, hx])
    conv_lhs => rw [← List.dropLast_append_getLast hl]
    rw [rstripNL_append_ex _ ⟨_, List.mem_singleton_self _, hlast⟩, rstripNL_single hlast,
      List.dropLast_append_getLast hl]

/-! ## `joinSep` -/

theorem joinSep_cons_of_ne_nil (sep : List Nat) (l : List Nat) {ls : List (List Nat)}
    (h : ls ≠ []) : joinSep sep (l :: ls) = l ++ sep ++ joinSep sep ls := by
  cases ls with
  | nil => exact absurd rfl h
  | cons l2 ls2 => rfl

/-! ## `findNN` -/

theorem findNN_none : ∀ {l : List Nat}, findNN l = none →
    ∀ u v : List Nat, l ≠ u ++ 10 :: 10 :: v := by
  intro l
  induction l with
  | nil =>
    intro _ u v heq
    have := congrArg List.length heq
    simp at this
    omega
  | cons a r ih =>
    intro h u v heq
    cases r with
    | nil =>
      have := congrArg List.length heq
      simp at this
      omega
    | cons b rest =>
      rw [findNN] at h
      split at h
      · exact Option.some_ne_none _ h
      · rename_i hnot
        have hr : findNN (b :: rest) = none := by
          cases hfr : findNN (b :: rest) with
          | none => rfl
          | some q => rw [hfr] at h; simp at h
        cases u with
        | nil =>
          simp at heq
          exact hnot ⟨heq.1, heq.2.1.symm ▸ rfl⟩
        | cons x u2 =>
          simp at heq
          exact ih hr u2 v heq.2

theorem findNN_some : ∀ {l : List Nat} {q : Nat}, findNN l = some q →
    ∃ c rest : List Nat, l = c ++ 10 :: 10 :: rest ∧ c.length = q ∧
      ∀ u v : List Nat, c ++ [10] ≠ u ++ 10 :: 10 :: v := by
  intro l
  induction l with
  | nil => intro q h; rw [findNN] at h; exact absurd h (Option.noConfusion)
  | cons a r ih =>
    intro q h
    cases r with
    | nil => rw [findNN] at h; exact absurd h (Option.noConfusion)
    | cons b rest =>
      rw [findNN] at h
      split at h
      · rename_i hab
        obtain ⟨ha, hb⟩ := hab
        simp only [Option.some.injEq] at h
        refine ⟨[], rest, by simp [ha, hb], by simpa using h, ?_⟩
        · intro u v heq
          have := congrArg List.length heq
          simp at this
          omega
      · rename_i hnot
        rw [Option.map_eq_some'] at h
        obtain ⟨q', hq', hq⟩ := h
        obtain ⟨c', rest', heq', hlen', hnn'⟩ := ih hq'
        refine ⟨a :: c', rest', by simp [heq'], by simp [hlen', ← hq], ?_⟩
        intro u v heq
        cases u with
        | nil =>
          simp at heq
          obtain ⟨ha, htail⟩ := heq
          apply hnot
          refine ⟨ha, ?_⟩
          cases c' with
          | nil =>
            simp at heq'
            simp [heq'.1]
          | cons x c2 =>
            simp at htail
            have hx : x = 10 := htail.1
            have hb : b = x := by
              have := congrArg (fun l => l.head?) heq'
              simp at this
              exact this
            rw [hb, hx]
        | cons x u2 =>
          simp at heq
          exact hnn' u2 v heq.2

/-! ## `splitLinesC` -/

theorem splitLinesC_nil : splitLinesC [] = [] := by
  rw [splitLinesC]

theorem splitLinesC_cons (b : Nat) (r : List Nat) :
    splitLinesC (b :: r) =
      ((b :: r).takeWhile (· != 10)) :: splitLinesC (((b :: r).dropWhile (· != 10)).tail) := by
  rw [splitLinesC]

theorem splitLinesC_ne_nil {c : List Nat} (h : c ≠ []) : splitLinesC c ≠ [] := by
  cases c with
  | nil => exact absurd rfl h
  | cons b r => rw [splitLinesC_cons]; simp

theorem joinSep_splitLinesC_aux : ∀ (n : Nat) (c : List Nat), c.length ≤ n →
    joinSep [10] (splitLinesC c) = if c.getLast? = some 10 then c.dropLast else c := by
  intro n
  induction n with
  | zero =>
    intro c hc
    have hcn : c = [] := List.eq_nil_of_length_eq_zero (Nat.le_zero.mp hc)
    subst hcn
    simp [splitLinesC_nil, joinSep]
  | succ n ih =>
    intro c hc
    cases c with
    | nil => simp [splitLinesC_nil, joinSep]
    | cons b r =>
      rw [splitLinesC_cons]
      have hsplit := List.takeWhile_append_dropWhile (· != 10) (b :: r)
      cases hrest : (b :: r).dropWhile (· != 10) with
      | nil =>
        rw [hrest] at hsplit
        simp only [List.append_nil] at hsplit
        simp only [List.tail_nil, splitLinesC_nil]
        rw [hsplit]
        have h10 : ∀ x ∈ b :: r, (x != 10) = true := by
          rw [← List.dropWhile_eq_nil_iff]; exact hrest
        have hne : (b :: r) ≠ [] := by simp
        have hlast : (b :: r).getLast? ≠ some 10 := by
          rw [List.getLast?_eq_getLast _ hne]
          intro hx
          have hmem := List.getLast_mem hne
          have h2 := h10 _ hmem
          rw [Option.some.injEq] at hx
          rw [hx] at h2
          simp at h2
        rw [if_neg hlast]
        rfl
      | cons d rr =>
        have hd : d = 10 := by
          have := dropWhile_head_not hrest
          simpa using this
        subst hd
        simp only [List.tail_cons]
        rw [hrest] at hsplit
        obtain ⟨line, hline⟩ : ∃ line, (b :: r).takeWhile (· != 10) = line := ⟨_, rfl⟩
        rw [hline] at hsplit ⊢
        rw [← hsplit]
        cases rr with
        | nil =>
          simp only [splitLinesC_nil]
          rw [if_pos (List.getLast?_concat _), List.dropLast_concat]
          rfl
        | cons e rr2 =>
          have hsc : splitLinesC (e :: rr2) ≠ [] := splitLinesC_ne_nil (by simp)
          rw [joinSep_cons_of_ne_nil _ _ hsc]
          have hrrlen : (e :: rr2).length ≤ n := by
            have hlen := congrArg List.length hsplit
            simp only [List.length_append, List.length_cons] at hlen
            simp only [List.length_cons] at hc ⊢
            omega
          rw [ih (e :: rr2) hrrlen]
          have hrrne : (e :: rr2) ≠ [] := by simp
          have hgl : (line ++ 10 :: (e :: rr2)).getLast? = (e :: rr2).getLast? := by
            rw [show line ++ 10 :: (e :: rr2) = (line ++ [10]) ++ (e :: rr2) by simp,
              List.getLast?_append, List.getLast?_eq_getLast _ hrrne]
            rfl
          rw [hgl]
          by_cases hgl2 : (e :: rr2).getLast? = some 10
          · rw [if_pos hgl2, if_pos hgl2,
              show line ++ 10 :: (e :: rr2) = (line ++ [10]) ++ (e :: rr2) by simp,
              List.dropLast_append_of_ne_nil _ hrrne]
          · rw [if_neg hgl2, if_neg hgl2]
            simp [List.append_assoc]

theorem joinSep_splitLinesC (c : List Nat) :
    joinSep [10] (splitLinesC c) = if c.getLast? = some 10 then c.dropLast else c :=
  joinSep_splitLinesC_aux c.length c le_rfl

/-! ## `parseLoop` unfolding -/

theorem parseLoop_of_nil {t : List Nat} (h : t.dropWhile (· == 10) = []) : parseLoop t = [] := by
  rw [parseLoop]
  simp [h]

theorem parseLoop_of_none {t : List Nat} (h2 : t.dropWhile (· == 10) ≠ [])
    (h3 : findNN (t.dropWhile (· == 10)) = none) :
    parseLoop t = [⟨splitLinesC (t.dropWhile (· == 10))⟩] := by
  rw [parseLoop]
  simp [h2, h3]

theorem parseLoop_of_some {t : List Nat} {q : Nat} (h2 : t.dropWhile (· == 10) ≠ [])
    (h3 : findNN (t.dropWhile (· == 10)) = some q) :
    parseLoop t = ⟨splitLinesC ((t.dropWhile (· == 10)).take q)⟩ ::
      parseLoop ((t.dropWhile (· == 10)).drop (q + 2)) := by
  rw [parseLoop]
  simp [h2, h3]

theorem parseLoop_cons_nl (r : List Nat) : parseLoop (10 :: r) = parseLoop r := by
  have hd : (10 :: r).dropWhile (· == 10) = r.dropWhile (· == 10) := by
    rw [List.dropWhile_cons]; simp
  rcases eq_or_ne (r.dropWhile (· == 10)) [] with h | h
  · rw [parseLoop_of_nil (hd.trans h), parseLoop_of_nil h]
  · cases hf : findNN (r.dropWhile (· == 10)) with
    | none =>
      rw [parseLoop_of_none (by rw [hd]; exact h) (by rw [hd]; exact hf),
        parseLoop_of_none h hf, hd]
    | some q =>
      rw [parseLoop_of_some (by rw [hd]; exact h) (by rw [hd]; exact hf),
        parseLoop_of_some h hf, hd]

theorem parseLoop_ne_nil {t : List Nat} (h : t.dropWhile (· == 10) ≠ []) : parseLoop t ≠ [] := by
  cases hf : findNN (t.dropWhile (· == 10)) with
  | none => rw [parseLoop_of_none h hf]; simp
  | some q => rw [parseLoop_of_some h hf]; simp

theorem joinSep_single (sep l : List Nat) : joinSep sep [l] = l := rfl

theorem rstripNL_of_noNN {l : List Nat} (h : ∀ u v : List Nat, l ≠ u ++ 10 :: 10 :: v) :
    rstripNL l = if l.getLast? = some 10 then l.dropLast else l := by
  by_cases hl : l.getLast? = some 10
  · rw [if_pos hl]
    have hne : l ≠ [] := by intro he; rw [he] at hl; simp at hl
    have hlast : l.getLast hne = 10 := by
      rw [List.getLast?_eq_getLast _ hne] at hl; exact Option.some.inj hl
    conv_lhs => rw [← List.dropLast_append_getLast hne, hlast]
    rw [rstripNL_append_all _ (by intro x hx; simpa using hx)]
    apply rstripNL_eq_self
    intro hdl
    have hdne : l.dropLast ≠ [] := by
      intro he; rw [he] at hdl; simp at hdl
    have hdlast : l.dropLast.getLast hdne = 10 := by
      rw [List.getLast?_eq_getLast _ hdne] at hdl; exact Option.some.inj hdl
    apply h l.dropLast.dropLast []
    conv_lhs => rw [← List.dropLast_append_getLast hne, hlast]
    conv_lhs => rw [← List.dropLast_append_getLast hdne, hdlast]
    simp
  · rw [if_neg hl, rstripNL_eq_self hl]

theorem parseLoop_join_aux : ∀ (n : Nat) (t : List Nat), t.length ≤ n →
    (∀ u v : List Nat, rstripNL (t.dropWhile (· == 10)) ≠ u ++ 10 :: 10 :: 10 :: v) →
    joinSep [10, 10] ((parseLoop t).map fun p => joinSep [10] p.lines)
      = rstripNL (t.dropWhile (· == 10)) := by
  intro n
  induction n with
  | zero =>
    intro t ht _
    have hn : t = [] := List.eq_nil_of_length_eq_zero (Nat.le_zero.mp ht)
    subst hn
    rw [parseLoop_of_nil (by simp)]
    rfl
  | succ n ih =>
    intro t ht htriple
    rcases eq_or_ne (t.dropWhile (· == 10)) [] with hnil | hne
    · rw [parseLoop_of_nil hnil, hnil, rstripNL_nil]; rfl
    · obtain ⟨b, r, hbr⟩ : ∃ b r, t.dropWhile (· == 10) = b :: r := by
        cases h : t.dropWhile (· == 10) with
        | nil => exact absurd h hne
        | cons b r => exact ⟨b, r, rfl⟩
      have hb : b ≠ 10 := by
        have := dropWhile_head_not hbr; simpa using this
      cases hf : findNN (t.dropWhile (· == 10)) with
      | none =>
        rw [parseLoop_of_none hne hf]
        have hnn := findNN_none hf
        simp only [List.map_cons, List.map_nil]
        rw [joinSep_single, joinSep_splitLinesC, rstripNL_of_noNN hnn]
      | some q =>
        obtain ⟨c, rest, heq, hlen, hnn⟩ := findNN_some hf
        have hcne : c ≠ [] := by
          intro hc
          rw [hc, hbr] at heq
          simp at heq
          exact hb heq.1
        have hclast : c.getLast? ≠ some 10 := by
          intro hcl
          have hlast : c.getLast hcne = 10 := by
            rw [List.getLast?_eq_getLast _ hcne] at hcl; exact Option.some.inj hcl
          apply hnn c.dropLast []
          conv_lhs => rw [← List.dropLast_append_getLast hcne, hlast]
          simp
        have htake : (t.dropWhile (· == 10)).take q = c := by
          rw [heq, ← hlen, List.take_left]
        have hdrop : (t.dropWhile (· == 10)).drop (q + 2) = rest := by
          rw [heq, show c ++ 10 :: 10 :: rest = (c ++ [10, 10]) ++ rest by simp,
            show q + 2 = (c ++ [10, 10]).length by simp [hlen],
            List.drop_left]
        rw [parseLoop_of_some hne hf, htake, hdrop]
        have hjc : joinSep [10] (splitLinesC c) = c := by
          rw [joinSep_splitLinesC, if_neg hclast]
        rcases eq_or_ne (rest.dropWhile (· == 10)) [] with hrnil | hrne
        · rw [parseLoop_of_nil hrnil]
          simp only [List.map_cons, List.map_nil]
          rw [joinSep_single, hjc]
          have hall : ∀ x ∈ (10 :: 10 :: rest : List Nat), x = 10 := by
            intro x hx
            have hrall := List.dropWhile_eq_nil_iff.mp hrnil
            rcases List.mem_cons.mp hx with h1 | hx
            · exact h1
            rcases List.mem_cons.mp hx with h1 | hx
            · exact h1
            · simpa using hrall x hx
          rw [heq, rstripNL_append_all c hall, rstripNL_eq_self hclast]
        · have hrex : ∃ x ∈ rest, ¬x = 10 := by
            by_contra hall
            push_neg at hall
            exact hrne (List.dropWhile_eq_nil_iff.mpr (fun x hx => by simp [hall x hx]))
          obtain ⟨d2, r2, hrest2⟩ : ∃ d2 r2, rest = d2 :: r2 := by
            cases hr0 : rest with
            | nil => rw [hr0] at hrne; simp at hrne
            | cons d2 r2 => exact ⟨d2, r2, rfl⟩
          have hd2 : d2 ≠ 10 := by
            intro hd2
            obtain ⟨x, hx, hx10⟩ := hrex
            rw [hrest2] at hx
            have hxr2 : x ∈ r2 := by
              rcases List.mem_cons.mp hx with h1 | hx2
              · exact absurd (h1.trans hd2) hx10
              · exact hx2
            apply htriple c (rstripNL r2)
            rw [heq, hrest2, hd2]
            rw [show c ++ 10 :: 10 :: 10 :: r2 = (c ++ [10, 10, 10]) ++ r2 by simp,
              rstripNL_append_ex _ ⟨x, hxr2, hx10⟩]
            simp
          have hrdw : rest.dropWhile (· == 10) = rest := by
            rw [hrest2, List.dropWhile_cons, if_neg (by simp [hd2])]
          have hrlen : rest.length ≤ n := by
            have h1 := (List.dropWhile_sublist (l := t) (fun x => x == 10)).length_le
            have h2 := congrArg List.length heq
            simp only [List.length_append, List.length_cons] at h2
            omega
          have hrtriple : ∀ u v : List Nat,
              rstripNL (rest.dropWhile (· == 10)) ≠ u ++ 10 :: 10 :: 10 :: v := by
            intro u v hcon
            rw [hrdw] at hcon
            apply htriple (c ++ 10 :: 10 :: u) v
            rw [heq, show c ++ 10 :: 10 :: rest = (c ++ [10, 10]) ++ rest by simp,
              rstripNL_append_ex _ hrex, hcon]
            simp
          have hihr := ih rest hrlen hrtriple
          have hpl : parseLoop rest ≠ [] :=
            parseLoop_ne_nil (by rw [hrdw, hrest2]; simp)
          rw [List.map_cons, joinSep_cons_of_ne_nil _ _ (by simpa using hpl), hjc, hihr, hrdw]
          rw [heq, show c ++ 10 :: 10 :: rest = (c ++ [10, 10]) ++ rest by simp,
            rstripNL_append_ex _ hrex]

theorem hasTripleNL_eq_false : ∀ {l : List Nat}, hasTripleNL l = false →
    ∀ u v : List Nat, l ≠ u ++ 10 :: 10 :: 10 :: v := by
  intro l
  induction l with
  | nil =>
    intro _ u v heq
    have := congrArg List.length heq; simp at this; omega
  | cons a r ih =>
    intro h u v heq
    cases r with
    | nil => have := congrArg List.length heq; simp at this; omega
    | cons b r2 =>
      cases r2 with
      | nil => have := congrArg List.length heq; simp at this; omega
      | cons c r3 =>
        rw [hasTripleNL, Bool.or_eq_false_iff] at h
        obtain ⟨h1, h2⟩ := h
        cases u with
        | nil =>
          simp only [List.nil_append, List.cons.injEq] at heq
          rw [heq.1, heq.2.1, heq.2.2.1] at h1
          simp at h1
        | cons x u2 =>
          simp only [List.cons_append, List.cons.injEq] at heq
          exact ih h2 u2 v heq.2

/-- C1 (amended): joining the parsed Paragraphs back together with `"\n"`
inside paragraphs and `"\n\n"` between them reproduces the input (up to its
first null byte) stripped of leading and of trailing newline bytes, provided
that stripped core contains no run of three or more consecutive newline
bytes.  (The original claim, without that proviso, is refuted by
`spec_c1_counterexample`: interior separators of three or more newlines are
collapsed to a double newline by the parse/join round trip.) -/
theorem spec_c1 (text : List Nat)
    (h : hasTripleNL (rstripNL ((text.takeWhile (· != 0)).dropWhile (· == 10))) = false) :
    joinSep [10, 10] ((parseDocument text).paragraphs.map fun p => joinSep [10] p.lines)
      = rstripNL ((text.takeWhile (· != 0)).dropWhile (· == 10)) :=
  parseLoop_join_aux (text.takeWhile (· != 0)).length _ le_rfl (hasTripleNL_eq_false h)

/-- C1, counterexample to the claim as stated: for the parseable input
`"a\n\n\nb"` the joined parse is `"a\n\nb"`, which differs from the input
stripped of leading blank-line bytes and of trailing newline bytes
(`"a\n\n\nb"` itself). -/
theorem spec_c1_counterexample :
    joinSep [10, 10] ((parseDocument [97, 10, 10, 10, 98]).paragraphs.map fun p =>
        joinSep [10] p.lines)
      ≠ rstripNL (([97, 10, 10, 10, 98].takeWhile (· != 0)).dropWhile (· == 10)) := by
  simp [parseDocument, parseLoop, splitLinesC, findNN, rstripNL, joinSep]

/-- C1, witness: the amended round trip at the concrete input `"hi\n"`. -/
theorem spec_c1_witness :
    hasTripleNL (rstripNL (([104, 105, 10].takeWhile (· != 0)).dropWhile (· == 10))) = false
    ∧ joinSep [10, 10] ((parseDocument [104, 105, 10]).paragraphs.map fun p =>
        joinSep [10] p.lines)
      = rstripNL (([104, 105, 10].takeWhile (· != 0)).dropWhile (· == 10)) :=
  ⟨by decide, spec_c1 [104, 105, 10] (by decide)⟩

theorem parseLoop_para_ne_nil : ∀ (n : Nat) (t : List Nat), t.length ≤ n →
    ∀ p ∈ parseLoop t, p.lines ≠ [] := by
  intro n
  induction n with
  | zero =>
    intro t ht p hp
    have hn : t = [] := List.eq_nil_of_length_eq_zero (Nat.le_zero.mp ht)
    subst hn
    rw [parseLoop_of_nil (by simp)] at hp
    simp at hp
  | succ n ih =>
    intro t ht p hp
    rcases eq_or_ne (t.dropWhile (· == 10)) [] with hnil | hne
    · rw [parseLoop_of_nil hnil] at hp; simp at hp
    · obtain ⟨b, r, hbr⟩ : ∃ b r, t.dropWhile (· == 10) = b :: r := by
        cases h : t.dropWhile (· == 10) with
        | nil => exact absurd h hne
        | cons b r => exact ⟨b, r, rfl⟩
      have hb : b ≠ 10 := by have := dropWhile_head_not hbr; simpa using this
      cases hf : findNN (t.dropWhile (· == 10)) with
      | none =>
        rw [parseLoop_of_none hne hf] at hp
        simp only [List.mem_singleton] at hp
        rw [hp]
        exact splitLinesC_ne_nil hne
      | some q =>
        obtain ⟨c, rest, heq, hlen, hnn⟩ := findNN_some hf
        have hcne : c ≠ [] := by
          intro hc
          rw [hc, hbr] at heq
          simp at heq
          exact hb heq.1
        have htake : (t.dropWhile (· == 10)).take q = c := by
          rw [heq, ← hlen, List.take_left]
        have hdrop : (t.dropWhile (· == 10)).drop (q + 2) = rest := by
          rw [heq, show c ++ 10 :: 10 :: rest = (c ++ [10, 10]) ++ rest by simp,
            show q + 2 = (c ++ [10, 10]).length by simp [hlen], List.drop_left]
        rw [parseLoop_of_some hne hf, htake, hdrop] at hp
        rcases List.mem_cons.mp hp with hp1 | hp2
        · rw [hp1]
          exact splitLinesC_ne_nil hcne
        · have hrlen : rest.length ≤ n := by
            have h1 := (List.dropWhile_sublist (l := t) (fun x => x == 10)).length_le
            have h2 := congrArg List.length heq
            simp only [List.length_append, List.length_cons] at h2
            omega
          exact ih rest hrlen p hp2

/-- C4: every Paragraph produced by the parser, on any input, has at least
one Line: the parser never produces an empty paragraph. -/
theorem spec_c4 (text : List Nat) (p : Paragraph)
    (hp : p ∈ (parseDocument text).paragraphs) : 1 ≤ p.lines.length :=
  List.length_pos.mpr
    (parseLoop_para_ne_nil (text.takeWhile (· != 0)).length _ le_rfl p hp)

/-- C4, witness: the single paragraph of the parse of `"a"` has one line. -/
theorem spec_c4_witness :
    Paragraph.mk [[97]] ∈ (parseDocument [97]).paragraphs
    ∧ 1 ≤ (Paragraph.mk [[97]]).lines.length :=
  ⟨by simp [parseDocument, parseLoop, splitLinesC, findNN],
    spec_c4 [97] _ (by simp [parseDocument, parseLoop, splitLinesC, findNN])⟩

/-! ## `splitNL` and `countRuns` -/

theorem splitNL_ne_nil : ∀ (l : List Nat), splitNL l ≠ [] := by
  intro l
  cases l with
  | nil => simp [splitNL]
  | cons b r =>
    rw [splitNL]
    split
    · simp
    · split <;> simp

theorem splitNL_append_nl : ∀ (u v : List Nat), splitNL (u ++ 10 :: v) = splitNL u ++ splitNL v := by
  intro u v
  induction u with
  | nil => simp [splitNL]
  | cons a u2 ih =>
    by_cases ha : a = 10
    · subst ha
      simp only [List.cons_append]
      rw [splitNL, if_pos (by simp), ih, show splitNL (10 :: u2) = [] :: splitNL u2 by
        rw [splitNL, if_pos (by simp)]]
      rfl
    · simp only [List.cons_append]
      rw [splitNL, if_neg (by simpa using ha), ih]
      cases hsp : splitNL u2 with
      | nil => exact absurd hsp (splitNL_ne_nil u2)
      | cons l ls =>
        rw [show splitNL (a :: u2) = (a :: l) :: ls by
          rw [splitNL, if_neg (by simpa using ha), hsp]]
        simp

theorem splitNL_no_nl : ∀ {l : List Nat}, (∀ x ∈ l, (x == 10) = false) → splitNL l = [l] := by
  intro l
  induction l with
  | nil => intro _; rfl
  | cons b r ih =>
    intro h
    rw [splitNL, if_neg (by simp [h b (by simp)]), ih (fun x hx => h x (by simp [hx]))]

theorem splitNL_cons_ne {e : Nat} (rr2 : List Nat) (h : (e == 10) = false) :
    ∃ l0 ls0, splitNL (e :: rr2) = (e :: l0) :: ls0 := by
  rw [splitNL, if_neg (by simp_all)]
  cases hsp : splitNL rr2 with
  | nil => exact ⟨[], [], rfl⟩
  | cons l ls => exact ⟨l, ls, rfl⟩

theorem countRuns_nil : countRuns [] = 0 := by
  rw [countRuns]

theorem countRuns_false_cons (rest : List Bool) : countRuns (false :: rest) = countRuns rest := by
  rw [countRuns]

theorem countRuns_true_cons (rest : List Bool) :
    countRuns (true :: rest) = 1 + countRuns (rest.dropWhile (fun x => x)) := by
  rw [countRuns]

theorem countRuns_all_false : ∀ {l : List Bool}, (∀ x ∈ l, x = false) → countRuns l = 0 := by
  intro l
  induction l with
  | nil => intro _; exact countRuns_nil
  | cons a r ih =>
    intro h
    rw [h a (by simp), countRuns_false_cons]
    exact ih (fun x hx => h x (by simp [hx]))

theorem countRuns_all_true {A : List Bool} (hA : ∀ x ∈ A, x = true) (hne : A ≠ []) :
    countRuns A = 1 := by
  cases A with
  | nil => exact absurd rfl hne
  | cons a A2 =>
    rw [hA a (by simp), countRuns_true_cons]
    rw [List.dropWhile_eq_nil_iff.mpr (fun x hx => by simp [hA x (by simp [hx])]), countRuns_nil]

theorem countRuns_block {A : List Bool} (X : List Bool) (hA : ∀ x ∈ A, x = true)
    (hne : A ≠ []) : countRuns (A ++ false :: X) = 1 + countRuns X := by
  cases A with
  | nil => exact absurd rfl hne
  | cons a A2 =>
    rw [hA a (by simp)]
    simp only [List.cons_append]
    rw [countRuns_true_cons,
      dropWhile_append_of_all _ (fun x hx => by simp [hA x (by simp [hx])]),
      List.dropWhile_cons, if_neg (by simp), countRuns_false_cons]

theorem specCount_all_nl : ∀ {t : List Nat}, (∀ x ∈ t, x = 10) → specParagraphCount t = 0 := by
  intro t
  induction t with
  | nil =>
    intro _
    show countRuns ((splitNL []).map fun l => !l.isEmpty) = 0
    rw [show splitNL [] = [[]] from rfl]
    simp only [List.map_cons, List.map_nil, List.isEmpty_nil, Bool.not_true]
    rw [countRuns_false_cons, countRuns_nil]
  | cons a r ih =>
    intro h
    have ha : a = 10 := h a (by simp)
    subst ha
    show countRuns ((splitNL (10 :: r)).map fun l => !l.isEmpty) = 0
    rw [show splitNL (10 :: r) = [] :: splitNL r by rw [splitNL, if_pos (by simp)]]
    simp only [List.map_cons, List.isEmpty_nil, Bool.not_true]
    rw [countRuns_false_cons]
    exact ih (fun x hx => h x (by simp [hx]))

theorem specCount_dropWhile : ∀ (t : List Nat),
    specParagraphCount t = specParagraphCount (t.dropWhile (· == 10)) := by
  intro t
  induction t with
  | nil => rfl
  | cons a r ih =>
    by_cases ha : a = 10
    · subst ha
      rw [List.dropWhile_cons, if_pos (by simp), ← ih]
      show countRuns ((splitNL (10 :: r)).map fun l => !l.isEmpty)
        = countRuns ((splitNL r).map fun l => !l.isEmpty)
      rw [show splitNL (10 :: r) = [] :: splitNL r by rw [splitNL, if_pos (by simp)]]
      simp only [List.map_cons, List.isEmpty_nil, Bool.not_true]
      rw [countRuns_false_cons]
    · rw [List.dropWhile_cons, if_neg (by simpa using ha)]

theorem specCount_noNN : ∀ (n : Nat) (b : Nat) (r : List Nat), (b :: r).length ≤ n →
    b ≠ 10 → (∀ u v : List Nat, b :: r ≠ u ++ 10 :: 10 :: v) →
    specParagraphCount (b :: r) = 1 := by
  intro n
  induction n with
  | zero => intro b r h _ _; simp at h
  | succ n ih =>
    intro b r hlen hb hnn
    have hsplit := List.takeWhile_append_dropWhile (· != 10) (b :: r)
    obtain ⟨line, hline⟩ : ∃ line, (b :: r).takeWhile (· != 10) = line := ⟨_, rfl⟩
    rw [hline] at hsplit
    have hlineno : ∀ x ∈ line, (x == 10) = false := by
      intro x hx
      rw [← hline] at hx
      have := List.mem_takeWhile_imp hx
      simpa using this
    have hlinene : line ≠ [] := by
      rw [← hline, List.takeWhile_cons, if_pos (by simpa using hb)]
      simp
    have hlinetrue : (!line.isEmpty) = true := by
      simp [List.isEmpty_iff, hlinene]
    cases hrest : (b :: r).dropWhile (· != 10) with
    | nil =>
      rw [hrest, List.append_nil] at hsplit
      rw [← hsplit]
      show countRuns ((splitNL line).map fun l => !l.isEmpty) = 1
      rw [splitNL_no_nl hlineno]
      refine countRuns_all_true ?_ (by simp)
      intro x hx
      simp only [List.map_cons, List.map_nil, List.mem_singleton] at hx
      rw [hx, hlinetrue]
    | cons d rr =>
      have hd : d = 10 := by have := dropWhile_head_not hrest; simpa using this
      subst hd
      rw [hrest] at hsplit
      rw [← hsplit]
      show countRuns ((splitNL (line ++ 10 :: rr)).map fun l => !l.isEmpty) = 1
      rw [splitNL_append_nl, splitNL_no_nl hlineno]
      simp only [List.singleton_append, List.map_cons, hlinetrue]
      cases rr with
      | nil =>
        rw [show splitNL ([] : List Nat) = [[]] from rfl]
        simp only [List.map_cons, List.map_nil, List.isEmpty_nil, Bool.not_true]
        rw [countRuns_true_cons, List.dropWhile_cons, if_neg (by simp),
          countRuns_false_cons, countRuns_nil]
      | cons e rr2 =>
        have he : e ≠ 10 := by
          intro he
          exact hnn line rr2 (by rw [hsplit.symm, he])
        have hlen2 : (e :: rr2).length ≤ n := by
          have := congrArg List.length hsplit
          simp only [List.length_append, List.length_cons] at this ⊢
          simp only [List.length_cons] at hlen
          omega
        have hnn2 : ∀ u v : List Nat, e :: rr2 ≠ u ++ 10 :: 10 :: v := by
          intro u v hcon
          exact hnn (line ++ 10 :: u) v (by rw [hsplit.symm, hcon]; simp)
        have hcount := ih e rr2 hlen2 he hnn2
        unfold specParagraphCount at hcount
        obtain ⟨l0, ls0, hsp0⟩ := splitNL_cons_ne rr2 (by simpa using he)
        rw [hsp0] at hcount ⊢
        simp only [List.map_cons] at hcount ⊢
        have hhead : (!(e :: l0).isEmpty) = true := by simp
        rw [hhead] at hcount ⊢
        rw [countRuns_true_cons] at hcount
        rw [countRuns_true_cons, List.dropWhile_cons, if_pos (by simp)]
        omega

theorem splitNL_lines_ne_nil : ∀ (n : Nat) (b : Nat) (r : List Nat), (b :: r).length ≤ n →
    b ≠ 10 → (b :: r).getLast? ≠ some 10 → (∀ u v : List Nat, b :: r ≠ u ++ 10 :: 10 :: v) →
    ∀ l ∈ splitNL (b :: r), l ≠ [] := by
  intro n
  induction n with
  | zero => intro b r h _ _ _; simp at h
  | succ n ih =>
    intro b r hlen hb hlast hnn l hl
    have hsplit := List.takeWhile_append_dropWhile (· != 10) (b :: r)
    obtain ⟨line, hline⟩ : ∃ line, (b :: r).takeWhile (· != 10) = line := ⟨_, rfl⟩
    rw [hline] at hsplit
    have hlineno : ∀ x ∈ line, (x == 10) = false := by
      intro x hx
      rw [← hline] at hx
      have := List.mem_takeWhile_imp hx
      simpa using this
    have hlinene : line ≠ [] := by
      rw [← hline, List.takeWhile_cons, if_pos (by simpa using hb)]
      simp
    cases hrest : (b :: r).dropWhile (· != 10) with
    | nil =>
      rw [hrest, List.append_nil] at hsplit
      rw [← hsplit, splitNL_no_nl hlineno] at hl
      simp only [List.mem_singleton] at hl
      rw [hl]
      exact hlinene
    | cons d rr =>
      have hd : d = 10 := by have := dropWhile_head_not hrest; simpa using this
      subst hd
      rw [hrest] at hsplit
      rw [← hsplit, splitNL_append_nl, splitNL_no_nl hlineno] at hl
      simp only [List.singleton_append, List.mem_cons] at hl
      rcases hl with hl | hl
      · rw [hl]; exact hlinene
      · cases rr with
        | nil =>
          exfalso
          apply hlast
          rw [← hsplit]
          exact List.getLast?_concat _
        | cons e rr2 =>
          have he : e ≠ 10 := by
            intro he
            exact hnn line rr2 (by rw [hsplit.symm, he])
          have hlen2 : (e :: rr2).length ≤ n := by
            have := congrArg List.length hsplit
            simp only [List.length_append, List.length_cons] at this ⊢
            simp only [List.length_cons] at hlen
            omega
          have hnn2 : ∀ u v : List Nat, e :: rr2 ≠ u ++ 10 :: 10 :: v := by
            intro u v hcon
            exact hnn (line ++ 10 :: u) v (by rw [hsplit.symm, hcon]; simp)
          have hlast2 : (e :: rr2).getLast? ≠ some 10 := by
            intro hcon
            apply hlast
            rw [← hsplit, show line ++ 10 :: e :: rr2 = (line ++ [10]) ++ (e :: rr2) by simp,
              List.getLast?_append, hcon]
            rfl
          exact ih e rr2 hlen2 he hlast2 hnn2 l hl

theorem parseLoop_length_aux : ∀ (n : Nat) (t : List Nat), t.length ≤ n →
    (parseLoop t).length = specParagraphCount t := by
  intro n
  induction n with
  | zero =>
    intro t ht
    have hn : t = [] := List.eq_nil_of_length_eq_zero (Nat.le_zero.mp ht)
    subst hn
    rw [parseLoop_of_nil (by simp), specCount_all_nl (by simp)]
    rfl
  | succ n ih =>
    intro t ht
    rcases eq_or_ne (t.dropWhile (· == 10)) [] with hnil | hne
    · rw [parseLoop_of_nil hnil,
        specCount_all_nl (fun x hx => by
          simpa using List.dropWhile_eq_nil_iff.mp hnil x hx)]
      rfl
    · obtain ⟨b, r, hbr⟩ : ∃ b r, t.dropWhile (· == 10) = b :: r := by
        cases h : t.dropWhile (· == 10) with
        | nil => exact absurd h hne
        | cons b r => exact ⟨b, r, rfl⟩
      have hb : b ≠ 10 := by have := dropWhile_head_not hbr; simpa using this
      rw [specCount_dropWhile t]
      cases hf : findNN (t.dropWhile (· == 10)) with
      | none =>
        rw [parseLoop_of_none hne hf, hbr]
        have hnn : ∀ u v : List Nat, b :: r ≠ u ++ 10 :: 10 :: v := by
          have := findNN_none hf
          rw [hbr] at this
          exact this
        rw [specCount_noNN (b :: r).length b r le_rfl hb hnn]
        rfl
      | some q =>
        obtain ⟨c, rest, heq, hlen, hnn⟩ := findNN_some hf
        have hcne : c ≠ [] := by
          intro hc
          rw [hc, hbr] at heq
          simp at heq
          exact hb heq.1
        obtain ⟨c2, hc2⟩ : ∃ c2, c = b :: c2 := by
          cases hcc : c with
          | nil => exact absurd hcc hcne
          | cons c0 c2 =>
            rw [hcc, hbr] at heq
            simp only [List.cons_append, List.cons.injEq] at heq
            exact ⟨c2, by rw [heq.1]⟩
        have hclast : c.getLast? ≠ some 10 := by
          intro hcl
          have hlast : c.getLast hcne = 10 := by
            rw [List.getLast?_eq_getLast _ hcne] at hcl; exact Option.some.inj hcl
          apply hnn c.dropLast []
          conv_lhs => rw [← List.dropLast_append_getLast hcne, hlast]
          simp
        have hcnn : ∀ u v : List Nat, c ≠ u ++ 10 :: 10 :: v := by
          intro u v hcon
          apply hnn u (v ++ [10])
          rw [hcon]
          simp
        have htake : (t.dropWhile (· == 10)).take q = c := by
          rw [heq, ← hlen, List.take_left]
        have hdrop : (t.dropWhile (· == 10)).drop (q + 2) = rest := by
          rw [heq, show c ++ 10 :: 10 :: rest = (c ++ [10, 10]) ++ rest by simp,
            show q + 2 = (c ++ [10, 10]).length by simp [hlen], List.drop_left]
        rw [parseLoop_of_some hne hf, htake, hdrop, hbr, ← hbr, heq]
        have hrlen : rest.length ≤ n := by
          have h1 := (List.dropWhile_sublist (l := t) (fun x => x == 10)).length_le
          have h2 := congrArg List.length heq
          simp only [List.length_append, List.length_cons] at h2
          omega
        have hmapc : ∀ x ∈ (splitNL c).map fun l => !l.isEmpty, x = true := by
          intro x hx
          rw [List.mem_map] at hx
          obtain ⟨l, hl, hfl⟩ := hx
          have hlne : l ≠ [] := by
            rw [hc2] at hl
            exact splitNL_lines_ne_nil (b :: c2).length b c2 le_rfl hb
              (hc2 ▸ hclast) (hc2 ▸ hcnn) l hl
          rw [← hfl]
          simp [List.isEmpty_iff, hlne]
        have hmapne : (splitNL c).map (fun l => !l.isEmpty) ≠ [] := by
          simp only [ne_eq, List.map_eq_nil_iff]
          exact splitNL_ne_nil c
        show _ = countRuns ((splitNL (c ++ 10 :: (10 :: rest))).map fun l => !l.isEmpty)
        rw [splitNL_append_nl, show splitNL (10 :: rest) = [] :: splitNL rest by
          rw [splitNL, if_pos (by simp)]]
        rw [List.map_append, List.map_cons]
        simp only [List.isEmpty_nil, Bool.not_true]
        rw [countRuns_block _ hmapc hmapne]
        have hihr := ih rest hrlen
        unfold specParagraphCount at hihr
        simp only [List.length_cons, hihr]
        omega

/-- C5: a paragraph boundary is exactly a run of two or more consecutive
newline bytes (a single newline is a line break within a paragraph), so the
number of Paragraphs the parser produces equals the number of maximal runs of
non-blank lines of the (null-terminated) source, blank lines being empty
lines. -/
theorem spec_c5 (text : List Nat) :
    (parseDocument text).paragraphs.length = specParagraphCount (text.takeWhile (· != 0)) :=
  parseLoop_length_aux (text.takeWhile (· != 0)).length _ le_rfl

/-! ## UTF-8 decoding and display width -/

theorem decodeUtf8_bounds : ∀ {s : List Nat} {cp k : Nat},
    decodeUtf8 s = some (cp, k) → 1 ≤ k ∧ k ≤ s.length := by
  intro s cp k h
  match s with
  | [] => simp [decodeUtf8] at h
  | [b0] =>
    simp only [decodeUtf8] at h
    split_ifs at h <;> simp_all <;> omega
  | [b0, b1] =>
    simp only [decodeUtf8] at h
    split_ifs at h <;> simp_all <;> omega
  | [b0, b1, b2] =>
    simp only [decodeUtf8] at h
    split_ifs at h <;> simp_all <;> omega
  | b0 :: b1 :: b2 :: b3 :: r =>
    simp only [decodeUtf8] at h
    split_ifs at h <;> simp_all <;> omega

theorem decodeUtf8_append {s : List Nat} {cp k : Nat} (t : List Nat)
    (h : decodeUtf8 s = some (cp, k)) : decodeUtf8 (s ++ t) = some (cp, k) := by
  match s with
  | [] => simp [decodeUtf8] at h
  | [b0] =>
    simp only [List.cons_append, List.nil_append]
    simp only [decodeUtf8] at h ⊢
    split_ifs at h ⊢ <;> first | exact h | simp_all
  | [b0, b1] =>
    simp only [List.cons_append, List.nil_append]
    simp only [decodeUtf8] at h ⊢
    split_ifs at h ⊢ <;> first | exact h | simp_all
  | [b0, b1, b2] =>
    simp only [List.cons_append, List.nil_append]
    simp only [decodeUtf8] at h ⊢
    split_ifs at h ⊢ <;> first | exact h | simp_all
  | b0 :: b1 :: b2 :: b3 :: r =>
    simp only [List.cons_append, List.nil_append]
    simp only [decodeUtf8] at h ⊢
    split_ifs at h ⊢ <;> first | exact h | simp_all

theorem widthLoop_nil (wcw : Nat → Int) : widthLoop wcw [] = 0 := by
  rw [widthLoop]

theorem widthLoop_decode {wcw : Nat → Int} {b : Nat} {rest : List Nat} {cp k : Nat}
    (h : decodeUtf8 (b :: rest) = some (cp, k)) :
    widthLoop wcw (b :: rest) = cpWidth wcw cp + widthLoop wcw ((b :: rest).drop k) := by
  have hk := (decodeUtf8_bounds h).1
  have hdrop : (b :: rest).drop k = rest.drop (k - 1) := by
    conv_lhs => rw [show k = (k - 1) + 1 by omega]
    rw [List.drop_succ_cons]
  rw [widthLoop, h, hdrop]

theorem widthLoop_err {wcw : Nat → Int} {b : Nat} {rest : List Nat}
    (h : decodeUtf8 (b :: rest) = none) :
    widthLoop wcw (b :: rest) = 1 + widthLoop wcw rest := by
  rw [widthLoop, h]

theorem mem_ne_zero {s : List Nat} (h : (0 : Nat) ∉ s) : ∀ x ∈ s, (x != 0) = true := by
  intro x hx
  simp only [bne_iff_ne, ne_eq]
  intro h0
  exact h (h0 ▸ hx)

theorem takeWhile_nz_eq_self {s : List Nat} (h : (0 : Nat) ∉ s) :
    s.takeWhile (· != 0) = s :=
  takeWhile_eq_self_of (mem_ne_zero h)

/-- C6: `getDisplayWidth` (i) terminates at the first null byte, (ii) charges
one column for every successfully decoded code point whose `wcwidth` is
negative (non-printable/control), and (iii) on a malformed or incomplete byte
sequence advances exactly one byte, adds one column and resets the decoder
state (the scan of the remaining bytes restarts from the initial state). -/
theorem spec_c6 (wcw : Nat → Int) :
    (∀ s t : List Nat, (0 : Nat) ∉ s →
      getDisplayWidth wcw (s ++ 0 :: t) = getDisplayWidth wcw s)
    ∧ (∀ (s : List Nat) (cp k : Nat), (0 : Nat) ∉ s → decodeUtf8 s = some (cp, k) →
      wcw cp < 0 → getDisplayWidth wcw s = 1 + getDisplayWidth wcw (s.drop k))
    ∧ (∀ (b : Nat) (s : List Nat), (0 : Nat) ∉ b :: s → decodeUtf8 (b :: s) = none →
      getDisplayWidth wcw (b :: s) = 1 + getDisplayWidth wcw s) := by
  refine ⟨?_, ?_, ?_⟩
  · intro s t hs
    unfold getDisplayWidth
    rw [takeWhile_append_of _ (mem_ne_zero hs), List.takeWhile_cons, if_neg (by simp),
      List.append_nil, takeWhile_nz_eq_self hs]
  · intro s cp k hs hdec hneg
    obtain ⟨b, rest, rfl⟩ : ∃ b rest, s = b :: rest := by
      cases s with
      | nil => simp [decodeUtf8] at hdec
      | cons b rest => exact ⟨b, rest, rfl⟩
    have hdrop : (0 : Nat) ∉ (b :: rest).drop k :=
      fun hx => hs (List.drop_subset _ _ hx)
    unfold getDisplayWidth
    rw [takeWhile_nz_eq_self hs, takeWhile_nz_eq_self hdrop, widthLoop_decode hdec,
      cpWidth, if_pos hneg]
  · intro b s h0 hdec
    have hs : (0 : Nat) ∉ s := fun hx => h0 (List.mem_cons_of_mem _ hx)
    unfold getDisplayWidth
    rw [takeWhile_nz_eq_self h0, takeWhile_nz_eq_self hs]
    exact widthLoop_err hdec

/-- C6, witness: the three behaviours at concrete inputs: the scan of
`"A" ++ "\x00B"` ignores everything from the null byte on; the control byte
`0x01` (negative `wcwidth`) contributes one column; the stray byte `0xFF` is
malformed and contributes one column. -/
theorem spec_c6_witness :
    getDisplayWidth (fun _ => 1) ([65] ++ 0 :: [66]) = getDisplayWidth (fun _ => 1) [65]
    ∧ getDisplayWidth (fun _ => -1) [1] = 1 + getDisplayWidth (fun _ => -1) ([1].drop 1)
    ∧ getDisplayWidth (fun _ => 1) [255] = 1 + getDisplayWidth (fun _ => 1) [] :=
  ⟨(spec_c6 (fun _ => 1)).1 [65] [66] (by decide),
    (spec_c6 (fun _ => -1)).2.1 [1] 1 1 (by decide) (by decide) (by decide),
    (spec_c6 (fun _ => 1)).2.2 255 [] (by decide) (by decide)⟩

theorem widthLoop_append_valid {wcw : Nat → Int} : ∀ {a : List Nat}, ValidUtf8 a →
    ∀ c : List Nat, widthLoop wcw (a ++ c) = widthLoop wcw a + widthLoop wcw c := by
  intro a hval
  induction hval with
  | nil => intro c; rw [List.nil_append, widthLoop_nil, Nat.zero_add]
  | cons hdec hrest ih =>
    rename_i s cp k
    intro c
    have hb := decodeUtf8_bounds hdec
    obtain ⟨b, rest, rfl⟩ : ∃ b rest, s = b :: rest := by
      cases s with
      | nil => simp [decodeUtf8] at hdec
      | cons b rest => exact ⟨b, rest, rfl⟩
    have hdec2 : decodeUtf8 ((b :: rest) ++ c) = some (cp, k) := decodeUtf8_append c hdec
    rw [List.cons_append] at hdec2
    rw [List.cons_append, widthLoop_decode hdec2, ← List.cons_append,
      List.drop_append_eq_append_drop, show k - (b :: rest).length = 0 by
        have h2 := hb.2
        simp only [List.length_cons] at h2 ⊢
        omega, List.drop_zero, ih c, widthLoop_decode hdec]
    omega

/-- C7: width additivity.  When the byte string `a` (a C string, hence free
of null bytes) is a concatenation of complete UTF-8 code-point encodings —
i.e. ends on a UTF-8 code-point boundary — the display width of `a ++ b`
is the sum of the display widths of `a` and of `b`, for every `b`. -/
theorem spec_c7 (wcw : Nat → Int) (a b : List Nat) (h0 : (0 : Nat) ∉ a)
    (hv : ValidUtf8 a) :
    getDisplayWidth wcw (a ++ b) = getDisplayWidth wcw a + getDisplayWidth wcw b := by
  unfold getDisplayWidth
  rw [takeWhile_append_of _ (mem_ne_zero h0), takeWhile_nz_eq_self h0]
  exact widthLoop_append_valid hv _

/-- C7, witness: `"A"` is one complete code point; appending the malformed
byte `0xFF` adds its one-column charge. -/
theorem spec_c7_witness :
    (0 : Nat) ∉ [65] ∧ ValidUtf8 [65]
    ∧ getDisplayWidth (fun _ => 2) ([65] ++ [255])
      = getDisplayWidth (fun _ => 2) [65] + getDisplayWidth (fun _ => 2) [255] :=
  ⟨by decide, @ValidUtf8.cons [65] 65 1 (by decide) ValidUtf8.nil,
    spec_c7 (fun _ => 2) [65] [255] (by decide)
      (@ValidUtf8.cons [65] 65 1 (by decide) ValidUtf8.nil)⟩

/-- C10: for every buffer containing a null byte, the parse, the display
width and the rendered output depend only on the bytes strictly before the
first null byte. -/
theorem spec_c10 (wcw : Nat → Int) (tw : Int) (s t : List Nat) (h : (0 : Nat) ∉ s) :
    parseDocument (s ++ 0 :: t) = parseDocument s
    ∧ getDisplayWidth wcw (s ++ 0 :: t) = getDisplayWidth wcw s
    ∧ printCenteredDocument wcw tw (parseDocument (s ++ 0 :: t))
      = printCenteredDocument wcw tw (parseDocument s) := by
  have htw : (s ++ 0 :: t).takeWhile (· != 0) = s.takeWhile (· != 0) := by
    rw [takeWhile_append_of _ (mem_ne_zero h), List.takeWhile_cons, if_neg (by simp),
      List.append_nil, takeWhile_nz_eq_self h]
  have h1 : parseDocument (s ++ 0 :: t) = parseDocument s := by
    unfold parseDocument
    rw [htw]
  refine ⟨h1, ?_, by rw [h1]⟩
  unfold getDisplayWidth
  rw [htw]

/-- C10, witness: the bytes after the null byte in `"hi\x00zz"` are ignored
by parsing, width measurement and rendering. -/
theorem spec_c10_witness :
    (0 : Nat) ∉ [104, 105]
    ∧ (parseDocument ([104, 105] ++ 0 :: [122, 122]) = parseDocument [104, 105]
      ∧ getDisplayWidth (fun _ => 1) ([104, 105] ++ 0 :: [122, 122])
        = getDisplayWidth (fun _ => 1) [104, 105]
      ∧ printCenteredDocument (fun _ => 1) 80 (parseDocument ([104, 105] ++ 0 :: [122, 122]))
        = printCenteredDocument (fun _ => 1) 80 (parseDocument [104, 105])) :=
  ⟨by decide, spec_c10 (fun _ => 1) 80 [104, 105] [122, 122] (by decide)⟩

/-! ## Renderer -/

theorem ite_neg_eq_max (x : Int) : (if x < 0 then (0 : Int) else x) = max x 0 := by
  rcases lt_or_le x 0 with hx | hx
  · rw [if_pos hx, max_eq_right hx.le]
  · rw [if_neg (not_lt.mpr hx), max_eq_left hx]

/-- C3: for every line, the renderer emits exactly
`max((terminalColumns − w) / 2, 0)` space bytes — `/` being C `int` division,
i.e. truncation toward zero — then the bytes of the line verbatim, then one
newline; and when `w ≤ terminalColumns` that count is `⌊(terminalColumns −
w)/2⌋` (the padding count equals the floor since the dividend is
non-negative). -/
theorem spec_c3 (wcw : Nat → Int) (tw : Int) (line : List Nat) :
    renderLine wcw tw line
      = List.replicate (max ((tw - (getDisplayWidth wcw line : Nat)).tdiv 2) 0).toNat 32
          ++ line ++ [10]
    ∧ (((getDisplayWidth wcw line : Nat) : Int) ≤ tw →
      (max ((tw - (getDisplayWidth wcw line : Nat)).tdiv 2) 0).toNat
        = (tw - (getDisplayWidth wcw line : Nat)).toNat / 2) := by
  constructor
  · simp only [renderLine]
    rw [ite_neg_eq_max]
  · intro hle
    have h0 : 0 ≤ tw - (getDisplayWidth wcw line : Nat) := by omega
    obtain ⟨m, hm⟩ : ∃ m : Nat, tw - (getDisplayWidth wcw line : Nat) = (m : Int) :=
      ⟨(tw - (getDisplayWidth wcw line : Nat)).toNat, (Int.toNat_of_nonneg h0).symm⟩
    rw [hm]
    rw [show ((m : Int)).tdiv 2 = ((m / 2 : Nat) : Int) from rfl]
    rw [max_eq_left (by positivity)]
    simp only [Int.toNat_natCast]

/-- C3, witness: at terminal width 20 the two-column line `"hi"` is rendered
with the spec formula's padding, and that padding is the floor of
`(20 − 2)/2`. -/
theorem spec_c3_witness :
    renderLine (fun _ => 1) 20 [104, 105]
      = List.replicate
          (max (((20 : Int) - (getDisplayWidth (fun _ => 1) [104, 105] : Nat)).tdiv 2) 0).toNat
          32 ++ [104, 105] ++ [10]
    ∧ (max (((20 : Int) - (getDisplayWidth (fun _ => 1) [104, 105] : Nat)).tdiv 2) 0).toNat
        = ((20 : Int) - (getDisplayWidth (fun _ => 1) [104, 105] : Nat)).toNat / 2 :=
  ⟨(spec_c3 (fun _ => 1) 20 [104, 105]).1,
    (spec_c3 (fun _ => 1) 20 [104, 105]).2
      (by simp [getDisplayWidth, widthLoop, decodeUtf8, cpWidth])⟩

/-- C2 (amended): a Line of display width zero does NOT render as a bare
newline: the renderer still emits `max(terminalColumns / 2, 0)` padding space
bytes (truncating division), then the Line's bytes, then a newline.  See
`spec_c2_counterexample` for the refutation of the bare-newline claim. -/
theorem spec_c2 (wcw : Nat → Int) (tw : Int) (line : List Nat)
    (h : getDisplayWidth wcw line = 0) :
    renderLine wcw tw line
      = List.replicate (max (tw.tdiv 2) 0).toNat 32 ++ line ++ [10] := by
  simp only [renderLine, h, Nat.cast_zero, sub_zero]
  rw [ite_neg_eq_max]

/-- C2, counterexample: the line consisting of the combining acute accent
U+0301 (bytes `CC 81`, `wcwidth` 0) has display width zero, yet at terminal
width 80 the renderer emits 40 padding spaces and the line's bytes before
the newline — not a bare newline. -/
theorem spec_c2_counterexample :
    getDisplayWidth (fun cp => if cp = 769 then 0 else 1) [204, 129] = 0
    ∧ (parseDocument [204, 129]).paragraphs = [Paragraph.mk [[204, 129]]]
    ∧ printCenteredDocument (fun cp => if cp = 769 then 0 else 1) 80
        (parseDocument [204, 129]) ≠ [10] := by
  refine ⟨?_, ?_, ?_⟩
  · simp [getDisplayWidth, widthLoop, decodeUtf8, cpWidth, isCont]
  · simp [parseDocument, parseLoop, splitLinesC, findNN]
  · simp [printCenteredDocument, parseDocument, parseLoop, splitLinesC, findNN,
      renderLine, getDisplayWidth, widthLoop, decodeUtf8, cpWidth, isCont, joinSep]
    decide

/-- C2, witness: the amended rendering of the width-zero empty Line at
terminal width 80. -/
theorem spec_c2_witness :
    getDisplayWidth (fun _ => 1) [] = 0
    ∧ renderLine (fun _ => 1) 80 []
      = List.replicate (max ((80 : Int).tdiv 2) 0).toNat 32 ++ [] ++ [10] :=
  ⟨by simp [getDisplayWidth, widthLoop_nil],
    spec_c2 (fun _ => 1) 80 [] (by simp [getDisplayWidth, widthLoop_nil])⟩

/-! ## Terminal probe -/

/-- C8 (amended): `getTerminalWidth` returns exactly 80 whenever the
window-size query fails, and otherwise returns the reported column count
verbatim; the result is positive whenever the reported count is positive
(and for the fallback), but not unconditionally — a successful query
reporting zero columns yields 0 (see `spec_c8_counterexample`). -/
theorem spec_c8 :
    getTerminalWidth none = 80
    ∧ (∀ c : Nat, getTerminalWidth (some c) = c)
    ∧ (∀ c : Nat, 0 < c → 0 < getTerminalWidth (some c)) :=
  ⟨rfl, fun _ => rfl, fun _ h => h⟩

/-- C8, counterexample: the returned terminal width is not positive in all
cases: a successful `ioctl` reporting `ws_col = 0` is passed through as 0. -/
theorem spec_c8_counterexample : ¬∀ r : Option Nat, 0 < getTerminalWidth r :=
  fun h => absurd (h (some 0)) (by decide)

/-- C8, witness: a successful query reporting 80 columns yields the positive
width 80. -/
theorem spec_c8_witness : 0 < 80 ∧ 0 < getTerminalWidth (some 80) :=
  ⟨by decide, spec_c8.2.2 80 (by decide)⟩

/-! ## Allocation model -/

theorem createParagraphA_true (st : Nat) :
    createParagraphA (fun _ => true) st = (st + 2, some (ParagraphA.mk [] 8)) := rfl

theorem addLineToParagraphA_true (st : Nat) (p : ParagraphA) (l : List Nat) :
    ((addLineToParagraphA (fun _ => true) st p l).2).lines = p.lines ++ [l] := by
  unfold addLineToParagraphA
  split <;> simp

theorem addParagraphToDocumentA_true (st : Nat) (d : DocumentA) (p : ParagraphA) :
    ((addParagraphToDocumentA (fun _ => true) st d p).2).paragraphs
      = d.paragraphs ++ [p] := by
  unfold addParagraphToDocumentA
  split <;> simp

theorem addLinesA_true : ∀ (ls : List (List Nat)) (st : Nat) (p : ParagraphA),
    ∃ r : Nat × ParagraphA, addLinesA (fun _ => true) st p ls = some r
      ∧ r.2.lines = p.lines ++ ls := by
  intro ls
  induction ls with
  | nil => intro st p; exact ⟨(st, p), rfl, by simp⟩
  | cons l ls ih =>
    intro st p
    obtain ⟨r, hr, hlines⟩ := ih (addLineToParagraphA (fun _ => true) (st + 1) p l).1
      (addLineToParagraphA (fun _ => true) (st + 1) p l).2
    refine ⟨r, ?_, ?_⟩
    · rw [addLinesA, if_pos (show (fun _ => true) st = true from rfl)]
      exact hr
    · rw [hlines, addLineToParagraphA_true]
      simp

theorem parseLoopA_of_nil {orc : Nat → Bool} {st : Nat} {d : DocumentA} {t : List Nat}
    (h : t.dropWhile (· == 10) = []) : parseLoopA orc st d t = some d := by
  rw [parseLoopA]
  simp [h]

theorem parseLoopA_of_none {orc : Nat → Bool} {st : Nat} {d : DocumentA} {t : List Nat}
    (h2 : t.dropWhile (· == 10) ≠ []) (h3 : findNN (t.dropWhile (· == 10)) = none) :
    parseLoopA orc st d t =
      match (createParagraphA orc st).2 with
      | none => none
      | some para =>
        match addLinesA orc (createParagraphA orc st).1 para
            (splitLinesC (t.dropWhile (· == 10))) with
        | none => none
        | some r => some (addParagraphToDocumentA orc r.1 d r.2).2 := by
  rw [parseLoopA]
  simp [h2, h3]

theorem parseLoopA_of_some {orc : Nat → Bool} {st : Nat} {d : DocumentA} {t : List Nat}
    {q : Nat} (h2 : t.dropWhile (· == 10) ≠ [])
    (h3 : findNN (t.dropWhile (· == 10)) = some q) :
    parseLoopA orc st d t =
      match (createParagraphA orc st).2 with
      | none => none
      | some para =>
        match addLinesA orc (createParagraphA orc st).1 para
            (splitLinesC ((t.dropWhile (· == 10)).take q)) with
        | none => none
        | some r =>
          parseLoopA orc (addParagraphToDocumentA orc r.1 d r.2).1
            (addParagraphToDocumentA orc r.1 d r.2).2
            ((t.dropWhile (· == 10)).drop (q + 2)) := by
  rw [parseLoopA]
  simp [h2, h3]

theorem parseLoopA_true : ∀ (n : Nat) (t : List Nat), t.length ≤ n →
    ∀ (st : Nat) (d : DocumentA),
    ∃ d2 : DocumentA, parseLoopA (fun _ => true) st d t = some d2
      ∧ d2.paragraphs.map ParagraphA.lines
        = d.paragraphs.map ParagraphA.lines ++ (parseLoop t).map Paragraph.lines := by
  intro n
  induction n with
  | zero =>
    intro t ht st d
    have hn : t = [] := List.eq_nil_of_length_eq_zero (Nat.le_zero.mp ht)
    subst hn
    refine ⟨d, parseLoopA_of_nil (by simp), ?_⟩
    rw [parseLoop_of_nil (by simp)]
    simp
  | succ n ih =>
    intro t ht st d
    rcases eq_or_ne (t.dropWhile (· == 10)) [] with hnil | hne
    · refine ⟨d, parseLoopA_of_nil hnil, ?_⟩
      rw [parseLoop_of_nil hnil]
      simp
    · cases hf : findNN (t.dropWhile (· == 10)) with
      | none =>
        obtain ⟨r, hr, hlines⟩ :=
          addLinesA_true (splitLinesC (t.dropWhile (· == 10))) (st + 2) (ParagraphA.mk [] 8)
        refine ⟨(addParagraphToDocumentA (fun _ => true) r.1 d r.2).2, ?_, ?_⟩
        · rw [parseLoopA_of_none hne hf, createParagraphA_true]
          dsimp only
          rw [hr]
        · rw [addParagraphToDocumentA_true, parseLoop_of_none hne hf]
          simp only [List.map_append, List.map_cons, List.map_nil]
          rw [hlines]
          simp
      | some q =>
        obtain ⟨r, hr, hlines⟩ :=
          addLinesA_true (splitLinesC ((t.dropWhile (· == 10)).take q)) (st + 2)
            (ParagraphA.mk [] 8)
        have hrlen : ((t.dropWhile (· == 10)).drop (q + 2)).length ≤ n := by
          have h1 := (List.dropWhile_sublist (l := t) (fun x => x == 10)).length_le
          have h2 : 0 < (t.dropWhile (· == 10)).length := List.length_pos.mpr hne
          simp only [List.length_drop]
          omega
        obtain ⟨d2, hd2, hmap2⟩ := ih _ hrlen
          (addParagraphToDocumentA (fun _ => true) r.1 d r.2).1
          (addParagraphToDocumentA (fun _ => true) r.1 d r.2).2
        refine ⟨d2, ?_, ?_⟩
        · rw [parseLoopA_of_some hne hf, createParagraphA_true]
          dsimp only
          rw [hr]
          exact hd2
        · rw [hmap2, addParagraphToDocumentA_true, parseLoop_of_some hne hf]
          simp only [List.map_append, List.map_cons]
          rw [hlines]
          simp

theorem paragraphMk_lines (p : Paragraph) : Paragraph.mk p.lines = p := rfl

/-- C9 (amended): the parser never fails because of the content of its
input — with every allocation succeeding, the allocation-aware parser
returns (non-null) exactly the Document of the allocation-free model, for
every input.  However, not every allocation failure is propagated: failures
of `createDocument`, `createParagraph` and of the per-line buffer `malloc`
yield a null Document, but `realloc`/`strdup` failures inside
`addLineToParagraph` (and `realloc` failures inside
`addParagraphToDocument`) are silently absorbed — parsing continues and a
non-null Document is returned with the affected line missing (see
`spec_c9_counterexample`). -/
theorem spec_c9 (text : List Nat) :
    (parseDocumentA (fun _ => true) text).map eraseDocA = some (parseDocument text) := by
  unfold parseDocumentA
  rw [show createDocumentA (fun _ => true) 0 = (2, some (DocumentA.mk [] 8)) from rfl]
  dsimp only
  obtain ⟨d2, hd2, hmap⟩ := parseLoopA_true (text.takeWhile (· != 0)).length _ le_rfl 2
    (DocumentA.mk [] 8)
  rw [hd2]
  simp only [Option.map_some']
  congr 1
  unfold eraseDocA parseDocument
  congr 1
  simp only [List.map_nil, List.nil_append] at hmap
  unfold eraseParaA
  calc d2.paragraphs.map (fun p => Paragraph.mk p.lines)
      = (d2.paragraphs.map ParagraphA.lines).map Paragraph.mk := by rw [List.map_map]; rfl
    _ = ((parseLoop (text.takeWhile (· != 0))).map Paragraph.lines).map Paragraph.mk := by
        rw [hmap]
    _ = (parseLoop (text.takeWhile (· != 0))).map (fun p => Paragraph.mk p.lines) := by
        rw [List.map_map]; rfl
    _ = parseLoop (text.takeWhile (· != 0)) := by
        simp only [paragraphMk_lines]
        simp

/-- C9, counterexample to the claim as stated: with the allocation oracle
failing exactly at allocation event 5 — the `strdup` inside
`addLineToParagraph` for the single line of input `"a"` — the parser does
NOT propagate the failure as a null Document: it returns a non-null Document
whose only paragraph has lost the line (compare with the allocation-free
parse, whose paragraph holds the line `"a"`). -/
theorem spec_c9_counterexample :
    (fun n => !(n == 5)) 5 = false
    ∧ parseDocumentA (fun n => !(n == 5)) [97] = some (DocumentA.mk [ParagraphA.mk [] 8] 8)
    ∧ parseDocument [97] = Document.mk [Paragraph.mk [[97]]] := by
  refine ⟨rfl, ?_, ?_⟩
  · simp [parseDocumentA, parseLoopA, createDocumentA, createParagraphA, addLinesA,
      addLineToParagraphA, addParagraphToDocumentA, splitLinesC, findNN]
  · simp [parseDocument, parseLoop, splitLinesC, findNN]
